import Mathlib

/-!
# Verification of the veritas-civica content sync core

A shallow embedding of the content sync and diffing subsystem of the
veritas-civica repository, together with theorems checking the spec's
claims about it.  The embedded functions are translated from:

* `src/lib/content/storage.ts` (`ContentStorage`: read/write/diff/sync),
* `src/lib/content/retrievers/base.ts` (`generateSlug`),
* `src/lib/content/retrievers/github-discussions.ts`
  (`discussionToRawContent`),
* `pipeline/integrations/github/graphql.ts` (`graphqlRequest` error
  handling, `listDiscussions`, `listAllDiscussions`).

File-system state is modelled as a map from storage keys to records; the
remote GitHub origin is modelled as a list of discussions served page by
page; platform primitives (SHA-256, `Date`/`parseInt` rendering, Unicode
NFD tables) are modelled as explicit function parameters or partial
tables, as noted on each definition.
-/

namespace Veritas

/-! ## Data model (`src/lib/content/types.ts`) -/

/-- `RawContent` from `types.ts`: one normalized content item. -/
structure RawContent where
  source : String
  sourceType : String
  category : String
  title : String
  slug : String
  discussionNumber : Nat
  discussionUrl : String
  retrievedAt : String
  updatedAt : String
  checksum : String
  body : String
deriving DecidableEq, Repr

/-- `SyncItemResult` from `types.ts`: the per-record entry of a sync report.
The `status` field is one of the strings "created", "updated", "unchanged",
"error", as in the source's string-literal union. -/
structure SyncItemResult where
  slug : String
  title : String
  category : String
  status : String
  error : Option String
deriving DecidableEq, Repr

/-! ## Storage layer (`src/lib/content/storage.ts`)

The file system under the storage base path is modelled as a map from
`(directory name, slug)` keys to records: `getFilePath` derives the path
from the lowercased, whitespace-hyphenated category and the slug, so two
categories with the same normalization share files. -/

/-- The file-system contents of the storage root: for each
`(category directory, slug)` key, the record stored at
`<base>/<dir>/<slug>.json`, if any. -/
abbrev Storage := (String × String) → Option RawContent

/-- ASCII model of JavaScript `String.prototype.toLowerCase` (the category
names and titles the pipeline handles are ASCII once diacritics are
decomposed; non-ASCII letters are left unchanged). -/
def lowerChar (c : Char) : Char :=
  if 'A' ≤ c ∧ c ≤ 'Z' then Char.ofNat (c.toNat + 32) else c

/-- Worker of `replaceRunsWith`: `inRun` records whether the previous
character belonged to the run currently being replaced, so only the first
character of each maximal run emits the replacement. -/
def replaceRunsGo (p : Char → Bool) (r : Char) : Bool → List Char → List Char
  | _, [] => []
  | inRun, c :: rest =>
    if p c then
      if inRun then replaceRunsGo p r true rest
      else r :: replaceRunsGo p r true rest
    else c :: replaceRunsGo p r false rest

/-- Replace every maximal run of characters satisfying `p` by the single
character `r` (the behaviour of `String.prototype.replace` with a global
`X+` pattern and a one-character replacement). -/
def replaceRunsWith (p : Char → Bool) (r : Char) (cs : List Char) : List Char :=
  replaceRunsGo p r false cs

/-- `getFilePath` / `getCategoryDir` directory normalization:
`category.toLowerCase().replace(/\s+/g, '-')`. -/
def dirName (category : String) : String :=
  String.mk (replaceRunsWith Char.isWhitespace '-' (category.data.map lowerChar))

/-- The storage key of `getFilePath(category, slug)`. -/
def storageKey (category slug : String) : String × String :=
  (dirName category, slug)

/-- `ContentStorage.readContent`: the record at the path derived from
`(category, slug)`, or `none` when the file is absent (ENOENT). -/
def readContent (st : Storage) (category slug : String) : Option RawContent :=
  st (storageKey category slug)

/-- `ContentStorage.writeContent`: serialize `content` to the path derived
from `(content.category, content.slug)`, overwriting unconditionally. -/
def writeContent (st : Storage) (content : RawContent) : Storage :=
  fun k => if k = storageKey content.category content.slug then some content else st k

/-- `ContentStorage.contentExists`: whether a file exists at the path
derived from `(category, slug)`. -/
def contentExists (st : Storage) (category slug : String) : Bool :=
  (readContent st category slug).isSome

/-! ## Content diffing (`ContentStorage.diffContent`) -/

/-- The `{slug, title, category, status}` entry `diffContent` pushes for a
record. -/
def mkItem (c : RawContent) (status : String) : SyncItemResult :=
  { slug := c.slug, title := c.title, category := c.category
    status := status, error := none }

/-- The error entry `syncContent` pushes when a write throws. -/
def mkErrorItem (c : RawContent) (msg : String) : SyncItemResult :=
  { slug := c.slug, title := c.title, category := c.category
    status := "error", error := some msg }

/-- The three buckets `diffContent` returns. -/
structure DiffResult where
  created : List SyncItemResult
  updated : List SyncItemResult
  unchanged : List SyncItemResult
deriving DecidableEq, Repr

/-- `ContentStorage.diffContent`: for each new record in order, read the
stored record at `(category, content.slug)`; absent classifies as
`created`, present with differing checksum as `updated`, otherwise
`unchanged`. -/
def diffContent (st : Storage) (newContent : List RawContent) (category : String) :
    DiffResult :=
  match newContent with
  | [] => ⟨[], [], []⟩
  | c :: rest =>
    let d := diffContent st rest category
    match readContent st category c.slug with
    | none => ⟨mkItem c "created" :: d.created, d.updated, d.unchanged⟩
    | some existing =>
      if existing.checksum ≠ c.checksum then
        ⟨d.created, mkItem c "updated" :: d.updated, d.unchanged⟩
      else
        ⟨d.created, d.updated, mkItem c "unchanged" :: d.unchanged⟩

/-! ## Batch sync (`ContentStorage.syncContent`) -/

/-- One step of building the `byCategory` JavaScript `Map`: append `c` to
its category's group, or open a new group at the end (JS `Map` iterates in
key-insertion order). -/
def addToGroup (groups : List (String × List RawContent)) (c : RawContent) :
    List (String × List RawContent) :=
  match groups with
  | [] => [(c.category, [c])]
  | (k, v) :: rest =>
    if k = c.category then (k, v ++ [c]) :: rest
    else (k, v) :: addToGroup rest c

/-- The `byCategory` map of `syncContent`, in iteration order. -/
def groupByCategory (contents : List RawContent) : List (String × List RawContent) :=
  contents.foldl addToGroup []

/-- The per-category diff loop of `syncContent`: run `diffContent` for each
group and concatenate the buckets in group order. -/
def diffAll (st : Storage) : List (String × List RawContent) → DiffResult
  | [] => ⟨[], [], []⟩
  | (cat, cs) :: rest =>
    let d1 := diffContent st cs cat
    let d2 := diffAll st rest
    ⟨d1.created ++ d2.created, d1.updated ++ d2.updated, d1.unchanged ++ d2.unchanged⟩

/-- The state of the write loop of `syncContent` when it finishes:
the file system, the surviving created/updated buckets, the error entries
pushed, and (as an observation of the control flow) the records for which
a write was attempted, in order. -/
structure WriteLoopResult where
  storage : Storage
  created : List SyncItemResult
  updated : List SyncItemResult
  errors : List SyncItemResult
  attempted : List RawContent

/-- The write loop of `syncContent` (the `if (!dryRun)` block): for each
content in batch order, look for a result with the same `slug` in
`[...allCreated, ...allUpdated]`; when found, attempt the write.  `fail c`
models whether `writeContent` throws for `c` and with which message; a
failure pushes an error entry and filters every entry with that slug out
of the created and updated buckets. -/
def syncWriteLoop (fail : RawContent → Option String) :
    List RawContent → Storage → List SyncItemResult → List SyncItemResult →
    WriteLoopResult
  | [], st, cr, up => ⟨st, cr, up, [], []⟩
  | c :: rest, st, cr, up =>
    if (cr ++ up).any (fun r => r.slug = c.slug) then
      match fail c with
      | none =>
        let res := syncWriteLoop fail rest (writeContent st c) cr up
        { res with attempted := c :: res.attempted }
      | some msg =>
        let res := syncWriteLoop fail rest st
          (cr.filter (fun r => ¬(r.slug = c.slug)))
          (up.filter (fun r => ¬(r.slug = c.slug)))
        { res with errors := mkErrorItem c msg :: res.errors
                   attempted := c :: res.attempted }
    else
      syncWriteLoop fail rest st cr up

/-- The report `syncContent` returns. -/
structure SyncReport where
  created : List SyncItemResult
  updated : List SyncItemResult
  unchanged : List SyncItemResult
  errors : List SyncItemResult
deriving DecidableEq, Repr

/-- `ContentStorage.syncContent`: group the batch by category, diff each
group against storage, then (unless `dryRun`) run the write loop.  Returns
the final file-system state together with the report. -/
def syncContent (fail : RawContent → Option String) (st : Storage)
    (contents : List RawContent) (dryRun : Bool) : Storage × SyncReport :=
  let d := diffAll st (groupByCategory contents)
  if dryRun then
    (st, ⟨d.created, d.updated, d.unchanged, []⟩)
  else
    let res := syncWriteLoop fail contents st d.created d.updated
    (res.storage, ⟨res.created, res.updated, d.unchanged, res.errors⟩)

/-- The attempted-write trace of a non-dry-run sync. -/
def syncAttempted (fail : RawContent → Option String) (st : Storage)
    (contents : List RawContent) : List RawContent :=
  let d := diffAll st (groupByCategory contents)
  (syncWriteLoop fail contents st d.created d.updated).attempted

/-- The status `diffContent` assigns a record, as a function of the stored
record at the record's own `(category, slug)` key (inside `syncContent`
every record is diffed within its own category's group). -/
def classify (st : Storage) (c : RawContent) : String :=
  match readContent st c.category c.slug with
  | none => "created"
  | some existing => if existing.checksum ≠ c.checksum then "updated" else "unchanged"

/-- Bucket predicate of `diffContent` for `created`: no stored record at
`(category, slug)`. -/
def createdPred (st : Storage) (category : String) (c : RawContent) : Bool :=
  (readContent st category c.slug).isNone

/-- Bucket predicate of `diffContent` for `updated`: a stored record with a
differing checksum. -/
def updatedPred (st : Storage) (category : String) (c : RawContent) : Bool :=
  match readContent st category c.slug with
  | some existing => decide (existing.checksum ≠ c.checksum)
  | none => false

/-- Bucket predicate of `diffContent` for `unchanged`: a stored record with
an equal checksum. -/
def unchangedPred (st : Storage) (category : String) (c : RawContent) : Bool :=
  match readContent st category c.slug with
  | some existing => decide (existing.checksum = c.checksum)
  | none => false

/-- The records of a grouped batch, in group-iteration order. -/
def joinGroups (gs : List (String × List RawContent)) : List RawContent :=
  (gs.map Prod.snd).flatten

/-- The storage key a record's own file lives at. -/
def recordKey (c : RawContent) : String × String :=
  storageKey c.category c.slug

/-- The last record of `ws` written to key `k` (later writes overwrite
earlier ones). -/
def lastWrite (ws : List RawContent) (k : String × String) : Option RawContent :=
  match ws with
  | [] => none
  | c :: rest =>
    match lastWrite rest k with
    | some r => some r
    | none => if storageKey c.category c.slug = k then some c else none

/-! ## GraphQL client error handling
(`pipeline/integrations/github/graphql.ts`, `graphqlRequest`) -/

/-- The part of a `fetch` response that `graphqlRequest`'s HTTP error
handling inspects: `ok`, `status`, `statusText`, and the two rate-limit
headers read with `response.headers.get`. -/
structure HttpResponse where
  ok : Bool
  status : Nat
  statusText : String
  rateLimitRemaining : Option String
  rateLimitReset : Option String
deriving DecidableEq, Repr

/-- `GitHubAPIError` (message plus optional HTTP status). -/
structure GitHubAPIError where
  message : String
  status : Option Nat
deriving DecidableEq, Repr

/-- The `if (!response.ok)` block of `graphqlRequest`: the typed failure a
non-2xx transport response raises, or `none` when the response is ok.
`fmtReset` models the platform composite
`new Date(parseInt(resetTime) * 1000).toISOString()`; the source guards
the reset header with JavaScript truthiness (`resetTime ? ... : null`,
then `resetDate?.toISOString() || 'unknown'`), which the empty-string
tests mirror. -/
def handleHttpErrors (fmtReset : String → String) (resp : HttpResponse) :
    Option GitHubAPIError :=
  if resp.ok then none
  else if resp.status = 401 then
    some ⟨"Authentication failed. Check your GitHub token.", some 401⟩
  else if resp.status = 403 then
    if resp.rateLimitRemaining = some "0" then
      let resetText :=
        match resp.rateLimitReset with
        | some t => if t = "" then "unknown"
                    else if fmtReset t = "" then "unknown" else fmtReset t
        | none => "unknown"
      some ⟨"GitHub API rate limit exceeded. Resets at " ++ resetText, some 403⟩
    else
      some ⟨"Access forbidden. Check token permissions.", some 403⟩
  else
    some ⟨"GitHub API request failed: " ++ resp.statusText, some resp.status⟩

/-! ## Discussion pagination
(`pipeline/integrations/github/graphql.ts`, `listDiscussions` and
`listAllDiscussions`).  The remote origin is modelled as the full list of
discussions in the requested category; a cursor is the index just past the
last node already served. -/

/-- The nested `category` object of a discussion. -/
structure DiscussionCategoryRef where
  id : String
  name : String
  slug : String
deriving DecidableEq, Repr

/-- The nested `author` object of a discussion. -/
structure DiscussionAuthor where
  login : String
deriving DecidableEq, Repr

/-- `Discussion` from `graphql.ts`. -/
structure Discussion where
  id : String
  number : Nat
  title : String
  body : String
  url : String
  createdAt : String
  updatedAt : String
  category : DiscussionCategoryRef
  author : Option DiscussionAuthor
deriving DecidableEq, Repr

/-- `pageInfo` of a paginated response, with the cursor as an index. -/
structure PageInfo where
  hasNextPage : Bool
  endCursor : Option Nat
deriving DecidableEq, Repr

/-- `PaginatedResponse<Discussion>` from `graphql.ts`. -/
structure PaginatedResponse where
  nodes : List Discussion
  pageInfo : PageInfo
  totalCount : Nat
deriving DecidableEq, Repr

/-- Model of the remote origin answering one paged query: `first` nodes
starting at the cursor, `hasNextPage` exactly when nodes remain beyond the
returned page, `endCursor` just past the last returned node (null when the
page is empty). -/
def servePage (items : List Discussion) (first : Nat) (cursor : Option Nat) :
    PaginatedResponse :=
  let idx := cursor.getD 0
  let nodes := (items.drop idx).take first
  { nodes := nodes
    pageInfo :=
      { hasNextPage := decide (idx + nodes.length < items.length)
        endCursor := if nodes.isEmpty then none else some (idx + nodes.length) }
    totalCount := items.length }

/-- `listDiscussions`: one paged request with
`first: Math.min(limit, 100)` (GitHub caps at 100 per page). -/
def listDiscussions (items : List Discussion) (limit : Nat) (cursor : Option Nat) :
    PaginatedResponse :=
  servePage items (min limit 100) cursor

/-- The `while (hasMore && allDiscussions.length < maxItems)` loop of
`listAllDiscussions`, with explicit fuel (the loop makes at most
`maxItems + 1` fetches against the modelled origin, which the theorems
about the closed form bear out).  Returns the accumulated discussions and
the number of page fetches made. -/
def listAllAux (items : List Discussion) (maxItems : Nat) :
    Nat → List Discussion → Option Nat → Bool → List Discussion × Nat
  | 0, acc, _, _ => (acc, 0)
  | fuel + 1, acc, cursor, hasMore =>
    if hasMore ∧ acc.length < maxItems then
      let pageSize := min (maxItems - acc.length) 100
      let resp := listDiscussions items pageSize cursor
      let res := listAllAux items maxItems fuel (acc ++ resp.nodes)
        resp.pageInfo.endCursor resp.pageInfo.hasNextPage
      (res.1, res.2 + 1)
    else
      (acc, 0)

/-- `listAllDiscussions(repo, categoryId, maxItems = 1000)`: fetch all
discussions in a category, following the cursor, up to `maxItems`.
Returns the discussions and the number of page fetches. -/
def listAllDiscussions (items : List Discussion) (maxItems : Nat) :
    List Discussion × Nat :=
  listAllAux items maxItems (maxItems + 1) [] none true

/-! ## Slug generation (`src/lib/content/retrievers/base.ts`) -/

/-- Partial model of the Unicode NFD decomposition performed by
`String.prototype.normalize('NFD')`: the Latin letters with diacritics
exercised here decompose into base letter plus combining mark; characters
without a listed decomposition are left intact. -/
def nfd (c : Char) : List Char :=
  if c = 'ò' then ['o', Char.ofNat 0x300]
  else if c = 'Ò' then ['O', Char.ofNat 0x300]
  else if c = 'è' then ['e', Char.ofNat 0x300]
  else if c = 'é' then ['e', Char.ofNat 0x301]
  else if c = 'á' then ['a', Char.ofNat 0x301]
  else if c = 'ö' then ['o', Char.ofNat 0x308]
  else if c = 'ü' then ['u', Char.ofNat 0x308]
  else [c]

/-- The combining diacritical marks range `[̀-ͯ]` stripped by
`generateSlug`. -/
def isCombiningMark (c : Char) : Bool :=
  decide (0x300 ≤ c.toNat ∧ c.toNat ≤ 0x36f)

/-- The character class `[a-z0-9]` of `generateSlug`'s replacement
pattern. -/
def isSlugAlnum (c : Char) : Bool :=
  decide (('a' ≤ c ∧ c ≤ 'z') ∨ ('0' ≤ c ∧ c ≤ '9'))

/-- `.replace(/^-+|-+$/g, '')`: drop leading and trailing hyphens. -/
def trimHyphens (cs : List Char) : List Char :=
  ((cs.dropWhile (fun c => c = '-')).reverse.dropWhile (fun c => c = '-')).reverse

/-- `generateSlug` from `base.ts`: NFD-normalize, strip combining marks,
lowercase, replace runs of non-alphanumerics with single hyphens, trim
leading/trailing hyphens, collapse repeated hyphens. -/
def generateSlug (title : String) : String :=
  let decomposed := ((title.data.map nfd).flatten).filter (fun c => ¬ isCombiningMark c)
  let lowered := decomposed.map lowerChar
  let hyphened := replaceRunsWith (fun c => ¬ isSlugAlnum c) '-' lowered
  String.mk (replaceRunsWith (fun c => c = '-') '-' (trimHyphens hyphened))

/-! ## Record normalization
(`src/lib/content/retrievers/github-discussions.ts`) -/

/-- The `connection` object of a source configuration. -/
structure SourceConnection where
  repository : String
deriving DecidableEq, Repr

/-- The `sync` options of a source configuration. -/
structure SourceSyncOptions where
  incremental : Bool
deriving DecidableEq, Repr

/-- `TopicConfig` from `types.ts`. -/
structure TopicConfig where
  category : String
  outputPath : String
  slugFrom : String
deriving DecidableEq, Repr

/-- `SourceConfig` from `types.ts`. -/
structure SourceConfig where
  name : String
  type : String
  enabled : Bool
  connection : SourceConnection
  topics : List TopicConfig
  sync : SourceSyncOptions
deriving DecidableEq, Repr

/-- `GitHubDiscussionsRetriever.discussionToRawContent`: convert a
discussion to a `RawContent`.  The SHA-256 digest of the body
(`generateSHA256Checksum`, a platform `crypto.subtle` primitive) is the
parameter `hash`; `now` is the `new Date().toISOString()` taken at
normalization time. -/
def discussionToRawContent (hash : String → String) (now : String)
    (d : Discussion) (source : SourceConfig) (topic : TopicConfig) : RawContent :=
  let slugSource := if topic.slugFrom = "title" then d.title else d.title
  { source := source.name
    sourceType := source.type
    category := topic.category
    title := d.title
    slug := generateSlug slugSource
    discussionNumber := d.number
    discussionUrl := d.url
    retrievedAt := now
    updatedAt := d.updatedAt
    checksum := hash d.body
    body := d.body }

/-! ## Concrete instances used by closed theorems and witnesses -/

/-- A record with the given category, slug, checksum and title (the other
fields held fixed). -/
def mkSample (cat slug ck title : String) : RawContent :=
  { source := "speculum-principum", sourceType := "github-discussions"
    category := cat, title := title, slug := slug
    discussionNumber := 1, discussionUrl := "https://example.test/d/1"
    retrievedAt := "2024-01-01T00:00:00.000Z", updatedAt := "2024-01-02T00:00:00.000Z"
    checksum := ck, body := "body" }

/-- The record already stored at category `"b"`, slug `"s"`. -/
def storedB : RawContent := mkSample "b" "s" "c2" "old title"

/-- A batch record in category `"a"` with slug `"s"`: no stored record at
`("a", "s")`, so it classifies as `created`. -/
def freshA : RawContent := mkSample "a" "s" "c1" "title a"

/-- A batch record in category `"b"` with slug `"s"` and the stored
checksum but a new title: it classifies as `unchanged`. -/
def unchangedB : RawContent := mkSample "b" "s" "c2" "new title"

/-- A storage holding exactly `storedB` at key `("b", "s")`. -/
def storageB : Storage := fun k => if k = ("b", "s") then some storedB else none

/-- A file system where every write succeeds. -/
def noWriteFailure : RawContent → Option String := fun _ => none

/-- A file system where exactly the write of `unchangedB` throws. -/
def failUnchangedB : RawContent → Option String :=
  fun c => if c = unchangedB then some "disk full" else none

/-- The empty storage root. -/
def emptyStorage : Storage := fun _ => none

/-- A batch record in category `"A"` (upper case) with slug `"s"`. -/
def caseUpper : RawContent := mkSample "A" "s" "x" "t1"

/-- A batch record in category `"a"` (lower case) with slug `"s"`: a
distinct `(category, slug)` pair from `caseUpper`, but the same storage
key. -/
def caseLower : RawContent := mkSample "a" "s" "y" "t2"

/-- A sample discussion numbered `n`. -/
def sampleDiscussion (n : Nat) : Discussion :=
  { id := "D_kwDO", number := n, title := "Title", body := "Body"
    url := "https://example.test/discussions/1"
    createdAt := "2024-01-01T00:00:00Z", updatedAt := "2024-01-02T00:00:00Z"
    category := ⟨"DIC_kwDO", "People", "people"⟩, author := some ⟨"octocat"⟩ }

/-- A paged origin holding 250 discussions. -/
def discussions250 : List Discussion := (List.range 250).map sampleDiscussion

/-- A 403 transport response whose rate-remaining header reads `"0"` and
whose reset header is present. -/
def rateLimitedResponse : HttpResponse :=
  { ok := false, status := 403, statusText := "Forbidden"
    rateLimitRemaining := some "0", rateLimitReset := some "1700000000" }

/-- A stand-in for `new Date(parseInt(t) * 1000).toISOString()` at the
witness's concrete reset header. -/
def fmtSample : String → String := fun _ => "2023-11-14T22:13:20.000Z"

/-- A sample source configuration. -/
def sampleSource : SourceConfig :=
  { name := "speculum-principum", type := "github-discussions", enabled := true
    connection := ⟨"owner/repo"⟩
    topics := [⟨"People", "people/", "title"⟩], sync := ⟨false⟩ }

/-- A sample topic configuration. -/
def sampleTopic : TopicConfig := ⟨"People", "people/", "title"⟩

/-- Two discussions with the same body but different titles, numbers and
timestamps. -/
def discussionX : Discussion :=
  { sampleDiscussion 1 with title := "First", updatedAt := "2024-03-01T00:00:00Z" }

/-- See `discussionX`: same body, everything else differs. -/
def discussionY : Discussion :=
  { sampleDiscussion 2 with title := "Second", updatedAt := "2024-04-01T00:00:00Z" }

/-- A concrete stand-in hash for the witness instances. -/
def hashSample : String → String := fun b => b ++ "#"

/-- A two-record batch with distinct storage keys, for the idempotence
witness. -/
def pairBatch : List RawContent :=
  [mkSample "People" "alpha" "h1" "Alpha", mkSample "People" "beta" "h2" "Beta"]

/-! # Theorems -/

/-! ## Diff classification -/

/-- The `created` bucket of `diffContent`, in closed form. -/
theorem diffContent_created_eq (st : Storage) (nc : List RawContent) (cat : String) :
    (diffContent st nc cat).created
      = (nc.filter (createdPred st cat)).map (fun c => mkItem c "created") := by
  induction nc with
  | nil => rfl
  | cons c rest ih =>
    simp only [diffContent]
    cases h : readContent st cat c.slug with
    | none => simp [List.filter_cons, createdPred, h, ih]
    | some e =>
      by_cases hc : e.checksum ≠ c.checksum
      · simp [List.filter_cons, createdPred, h, hc, ih]
      · simp [List.filter_cons, createdPred, h, hc, ih]

/-- The `updated` bucket of `diffContent`, in closed form. -/
theorem diffContent_updated_eq (st : Storage) (nc : List RawContent) (cat : String) :
    (diffContent st nc cat).updated
      = (nc.filter (updatedPred st cat)).map (fun c => mkItem c "updated") := by
  induction nc with
  | nil => rfl
  | cons c rest ih =>
    simp only [diffContent]
    cases h : readContent st cat c.slug with
    | none => simp [List.filter_cons, updatedPred, h, ih]
    | some e =>
      by_cases hc : e.checksum ≠ c.checksum
      · simp [List.filter_cons, updatedPred, h, hc, ih]
      · simp [List.filter_cons, updatedPred, h, hc, ih]

/-- The `unchanged` bucket of `diffContent`, in closed form. -/
theorem diffContent_unchanged_eq (st : Storage) (nc : List RawContent) (cat : String) :
    (diffContent st nc cat).unchanged
      = (nc.filter (unchangedPred st cat)).map (fun c => mkItem c "unchanged") := by
  induction nc with
  | nil => rfl
  | cons c rest ih =>
    simp only [diffContent]
    cases h : readContent st cat c.slug with
    | none => simp [List.filter_cons, unchangedPred, h, ih]
    | some e =>
      by_cases hc : e.checksum ≠ c.checksum
      · simp [List.filter_cons, unchangedPred, h, hc, ih]
      · rw [not_not] at hc
        simp [List.filter_cons, unchangedPred, h, hc, ih]

/-- C2: for every list of new records and every category, `diffContent`
reads the stored record at the same `(category, slug)` and classifies each
record as created exactly when no stored record exists, as updated exactly
when one exists with a differing checksum, and as unchanged exactly when
one exists with an equal checksum; in particular a new record whose stored
counterpart has an equal checksum lands in `unchanged` whatever its other
fields (e.g. its title). -/
theorem diffContent_checksum_classification (st : Storage) (nc : List RawContent)
    (cat : String) :
    ((diffContent st nc cat).created
       = (nc.filter (fun c => (readContent st cat c.slug).isNone)).map
           (fun c => mkItem c "created"))
  ∧ ((diffContent st nc cat).updated
       = (nc.filter (fun c =>
             match readContent st cat c.slug with
             | some existing => decide (existing.checksum ≠ c.checksum)
             | none => false)).map (fun c => mkItem c "updated"))
  ∧ ((diffContent st nc cat).unchanged
       = (nc.filter (fun c =>
             match readContent st cat c.slug with
             | some existing => decide (existing.checksum = c.checksum)
             | none => false)).map (fun c => mkItem c "unchanged"))
  ∧ (∀ c ∈ nc, ∀ existing, readContent st cat c.slug = some existing →
       existing.checksum = c.checksum →
       mkItem c "unchanged" ∈ (diffContent st nc cat).unchanged) := by
  refine ⟨diffContent_created_eq st nc cat, diffContent_updated_eq st nc cat,
    diffContent_unchanged_eq st nc cat, ?_⟩
  intro c hc existing hread hck
  rw [diffContent_unchanged_eq]
  refine List.mem_map_of_mem _ (List.mem_filter.mpr ⟨hc, ?_⟩)
  simp [unchangedPred, hread, hck]

/-! ## Grouping by category -/

/-- `addToGroup` keeps every group's records in that group's category. -/
theorem addToGroup_consistent (groups : List (String × List RawContent))
    (c : RawContent) (h : ∀ g ∈ groups, ∀ x ∈ g.2, x.category = g.1) :
    ∀ g ∈ addToGroup groups c, ∀ x ∈ g.2, x.category = g.1 := by
  induction groups with
  | nil =>
    intro g hg x hx
    simp only [addToGroup, List.mem_singleton] at hg
    subst hg
    simp only [List.mem_singleton] at hx
    subst hx
    rfl
  | cons kv rest ih =>
    obtain ⟨k, v⟩ := kv
    intro g hg x hx
    simp only [addToGroup] at hg
    by_cases hk : k = c.category
    · rw [if_pos hk] at hg
      rcases List.mem_cons.mp hg with hg | hg
      · subst hg
        rcases List.mem_append.mp hx with hx | hx
        · exact h (k, v) (List.mem_cons_self _ _) x hx
        · simp only [List.mem_singleton] at hx
          subst hx
          exact hk.symm
      · exact h g (List.mem_cons_of_mem _ hg) x hx
    · rw [if_neg hk] at hg
      rcases List.mem_cons.mp hg with hg | hg
      · subst hg
        exact h (k, v) (List.mem_cons_self _ _) x hx
      · exact ih (fun g' hg' => h g' (List.mem_cons_of_mem _ hg')) g hg x hx

/-- Helper for `groupByCategory_consistent`, generalized over the fold's
accumulator. -/
theorem foldl_addToGroup_consistent (l : List RawContent) :
    ∀ acc, (∀ g ∈ acc, ∀ x ∈ g.2, x.category = g.1) →
    ∀ g ∈ l.foldl addToGroup acc, ∀ x ∈ g.2, x.category = g.1 := by
  induction l with
  | nil => intro acc hacc; simpa using hacc
  | cons c rest ih =>
    intro acc hacc
    exact ih (addToGroup acc c) (addToGroup_consistent acc c hacc)

/-- Every record of a group of `groupByCategory` has that group's
category. -/
theorem groupByCategory_consistent (l : List RawContent) :
    ∀ g ∈ groupByCategory l, ∀ x ∈ g.2, x.category = g.1 :=
  foldl_addToGroup_consistent l [] (by simp)

/-- Joining `addToGroup`'s output recovers the old records plus the new
one, up to permutation. -/
theorem joinGroups_addToGroup (groups : List (String × List RawContent))
    (c : RawContent) :
    (joinGroups (addToGroup groups c)).Perm (joinGroups groups ++ [c]) := by
  induction groups with
  | nil => simp [addToGroup, joinGroups]
  | cons kv rest ih =>
    obtain ⟨k, v⟩ := kv
    by_cases hk : k = c.category
    · simp only [addToGroup, if_pos hk, joinGroups, List.map_cons, List.flatten_cons]
      rw [List.append_assoc, List.append_assoc]
      exact List.Perm.append_left v List.perm_append_comm
    · simp only [addToGroup, if_neg hk, joinGroups, List.map_cons, List.flatten_cons]
      rw [List.append_assoc]
      exact List.Perm.append_left v ih

/-- Helper for `joinGroups_groupByCategory`, generalized over the fold's
accumulator. -/
theorem joinGroups_foldl (l : List RawContent) :
    ∀ acc, (joinGroups (l.foldl addToGroup acc)).Perm (joinGroups acc ++ l) := by
  induction l with
  | nil => intro acc; simp
  | cons c rest ih =>
    intro acc
    have step : (joinGroups (rest.foldl addToGroup (addToGroup acc c))).Perm
        ((joinGroups acc ++ [c]) ++ rest) :=
      (ih (addToGroup acc c)).trans ((joinGroups_addToGroup acc c).append_right rest)
    simpa [List.append_assoc] using step

/-- The records of a grouped batch are the batch, up to permutation. -/
theorem joinGroups_groupByCategory (l : List RawContent) :
    (joinGroups (groupByCategory l)).Perm l := by
  simpa [joinGroups] using joinGroups_foldl l []

/-! ## The diff pass of `syncContent` -/

/-- The concatenated `created` bucket over consistent groups, keyed by
each record's own category. -/
theorem diffAll_created_eq (st : Storage) (gs : List (String × List RawContent))
    (h : ∀ g ∈ gs, ∀ x ∈ g.2, x.category = g.1) :
    (diffAll st gs).created
      = ((joinGroups gs).filter (fun c => createdPred st c.category c)).map
          (fun c => mkItem c "created") := by
  induction gs with
  | nil => rfl
  | cons g rest ih =>
    obtain ⟨cat, cs⟩ := g
    have hcs : ∀ x ∈ cs, x.category = cat :=
      fun x hx => h (cat, cs) (List.mem_cons_self _ _) x hx
    have hfil : cs.filter (createdPred st cat)
        = cs.filter (fun c => createdPred st c.category c) :=
      List.filter_congr (fun x hx => by rw [hcs x hx])
    simp only [diffAll, joinGroups, List.map_cons, List.flatten_cons,
      List.filter_append, List.map_append]
    rw [diffContent_created_eq, hfil, ih (fun g' hg' => h g' (List.mem_cons_of_mem _ hg'))]
    rfl

/-- The concatenated `updated` bucket over consistent groups. -/
theorem diffAll_updated_eq (st : Storage) (gs : List (String × List RawContent))
    (h : ∀ g ∈ gs, ∀ x ∈ g.2, x.category = g.1) :
    (diffAll st gs).updated
      = ((joinGroups gs).filter (fun c => updatedPred st c.category c)).map
          (fun c => mkItem c "updated") := by
  induction gs with
  | nil => rfl
  | cons g rest ih =>
    obtain ⟨cat, cs⟩ := g
    have hcs : ∀ x ∈ cs, x.category = cat :=
      fun x hx => h (cat, cs) (List.mem_cons_self _ _) x hx
    have hfil : cs.filter (updatedPred st cat)
        = cs.filter (fun c => updatedPred st c.category c) :=
      List.filter_congr (fun x hx => by rw [hcs x hx])
    simp only [diffAll, joinGroups, List.map_cons, List.flatten_cons,
      List.filter_append, List.map_append]
    rw [diffContent_updated_eq, hfil, ih (fun g' hg' => h g' (List.mem_cons_of_mem _ hg'))]
    rfl

/-- The concatenated `unchanged` bucket over consistent groups. -/
theorem diffAll_unchanged_eq (st : Storage) (gs : List (String × List RawContent))
    (h : ∀ g ∈ gs, ∀ x ∈ g.2, x.category = g.1) :
    (diffAll st gs).unchanged
      = ((joinGroups gs).filter (fun c => unchangedPred st c.category c)).map
          (fun c => mkItem c "unchanged") := by
  induction gs with
  | nil => rfl
  | cons g rest ih =>
    obtain ⟨cat, cs⟩ := g
    have hcs : ∀ x ∈ cs, x.category = cat :=
      fun x hx => h (cat, cs) (List.mem_cons_self _ _) x hx
    have hfil : cs.filter (unchangedPred st cat)
        = cs.filter (fun c => unchangedPred st c.category c) :=
      List.filter_congr (fun x hx => by rw [hcs x hx])
    simp only [diffAll, joinGroups, List.map_cons, List.flatten_cons,
      List.filter_append, List.map_append]
    rw [diffContent_unchanged_eq, hfil, ih (fun g' hg' => h g' (List.mem_cons_of_mem _ hg'))]
    rfl

/-- The diff pass of `syncContent` classifies, up to order, exactly the
batch records whose own `(category, slug)` key has no stored record as
`created`. -/
theorem syncDiff_created_perm (st : Storage) (batch : List RawContent) :
    ((diffAll st (groupByCategory batch)).created).Perm
      ((batch.filter (fun c => createdPred st c.category c)).map
        (fun c => mkItem c "created")) := by
  rw [diffAll_created_eq st _ (groupByCategory_consistent batch)]
  exact ((joinGroups_groupByCategory batch).filter _).map _

/-- Like `syncDiff_created_perm`, for `updated`. -/
theorem syncDiff_updated_perm (st : Storage) (batch : List RawContent) :
    ((diffAll st (groupByCategory batch)).updated).Perm
      ((batch.filter (fun c => updatedPred st c.category c)).map
        (fun c => mkItem c "updated")) := by
  rw [diffAll_updated_eq st _ (groupByCategory_consistent batch)]
  exact ((joinGroups_groupByCategory batch).filter _).map _

/-- Like `syncDiff_created_perm`, for `unchanged`. -/
theorem syncDiff_unchanged_perm (st : Storage) (batch : List RawContent) :
    ((diffAll st (groupByCategory batch)).unchanged).Perm
      ((batch.filter (fun c => unchangedPred st c.category c)).map
        (fun c => mkItem c "unchanged")) := by
  rw [diffAll_unchanged_eq st _ (groupByCategory_consistent batch)]
  exact ((joinGroups_groupByCategory batch).filter _).map _

/-! ## Dry-run sync -/

/-- C4: a dry-run sync performs no writes — the storage is returned intact,
every lookup (hence `contentExists`) reads as before — while the three
classification buckets are exactly those of the diff pass; in particular
the file of every created-classified entry still does not exist
afterwards. -/
theorem syncContent_dryRun_no_mutation (fail : RawContent → Option String)
    (st : Storage) (contents : List RawContent) :
    ((syncContent fail st contents true).1 = st)
  ∧ ((syncContent fail st contents true).2.created
       = (diffAll st (groupByCategory contents)).created)
  ∧ ((syncContent fail st contents true).2.updated
       = (diffAll st (groupByCategory contents)).updated)
  ∧ ((syncContent fail st contents true).2.unchanged
       = (diffAll st (groupByCategory contents)).unchanged)
  ∧ (∀ cat slug, contentExists (syncContent fail st contents true).1 cat slug
       = contentExists st cat slug)
  ∧ (∀ r ∈ (syncContent fail st contents true).2.created,
       contentExists (syncContent fail st contents true).1 r.category r.slug = false) := by
  refine ⟨rfl, rfl, rfl, rfl, fun cat slug => rfl, ?_⟩
  intro r hr
  have hr' : r ∈ (diffAll st (groupByCategory contents)).created := hr
  have hmem := (syncDiff_created_perm st contents).mem_iff.mp hr'
  rcases List.mem_map.mp hmem with ⟨c, hc, hrc⟩
  rcases List.mem_filter.mp hc with ⟨-, hpred⟩
  subst hrc
  show contentExists st c.category c.slug = false
  simp only [createdPred, Option.isNone_iff_eq_none] at hpred
  simp [contentExists, hpred]

/-- C10: a dry-run sync returns an empty `errors` bucket. -/
theorem syncContent_dryRun_errors_nil (fail : RawContent → Option String)
    (st : Storage) (contents : List RawContent) :
    (syncContent fail st contents true).2.errors = [] := by
  simp [syncContent]

/-! ## The write loop -/

/-- With empty created and updated buckets the write loop writes nothing. -/
theorem syncWriteLoop_nil_buckets (fail : RawContent → Option String)
    (cs : List RawContent) (st : Storage) :
    syncWriteLoop fail cs st [] [] = ⟨st, [], [], [], []⟩ := by
  induction cs generalizing st with
  | nil => rfl
  | cons c rest ih => simpa [syncWriteLoop] using ih st

/-- When the write loop reports no errors, no write failed: the buckets
come back untouched, and the loop wrote exactly the records whose slug
appears in the created/updated buckets, in batch order. -/
theorem syncWriteLoop_no_errors (fail : RawContent → Option String)
    (cs : List RawContent) (st : Storage) (cr up : List SyncItemResult)
    (h : (syncWriteLoop fail cs st cr up).errors = []) :
    (syncWriteLoop fail cs st cr up).created = cr
  ∧ (syncWriteLoop fail cs st cr up).updated = up
  ∧ (syncWriteLoop fail cs st cr up).attempted
      = cs.filter (fun c => (cr ++ up).any (fun r => r.slug = c.slug))
  ∧ (syncWriteLoop fail cs st cr up).storage
      = (cs.filter (fun c => (cr ++ up).any (fun r => r.slug = c.slug))).foldl
          writeContent st := by
  induction cs generalizing st with
  | nil => exact ⟨rfl, rfl, rfl, rfl⟩
  | cons c rest ih =>
    by_cases hp : ((cr ++ up).any (fun r => r.slug = c.slug)) = true
    · cases hfail : fail c with
      | none =>
        have hrec : (syncWriteLoop fail (c :: rest) st cr up)
            = { syncWriteLoop fail rest (writeContent st c) cr up with
                attempted := c :: (syncWriteLoop fail rest (writeContent st c) cr up).attempted } := by
          simp [syncWriteLoop, hp, hfail]
        have herr : (syncWriteLoop fail rest (writeContent st c) cr up).errors = [] := by
          rw [hrec] at h
          exact h
        obtain ⟨h1, h2, h3, h4⟩ := ih (writeContent st c) herr
        rw [hrec]
        refine ⟨h1, h2, ?_, ?_⟩
        · simp only [List.filter_cons, hp, if_pos rfl]
          exact congrArg (c :: ·) h3
        · simp only [List.filter_cons, hp, if_pos rfl, List.foldl_cons]
          exact h4
      | some msg =>
        exfalso
        have : (syncWriteLoop fail (c :: rest) st cr up).errors
            = mkErrorItem c msg :: (syncWriteLoop fail rest st
                (cr.filter (fun r => ¬(r.slug = c.slug)))
                (up.filter (fun r => ¬(r.slug = c.slug)))).errors := by
          simp [syncWriteLoop, hp, hfail]
        rw [this] at h
        exact List.cons_ne_nil _ _ h
    · have hrec : syncWriteLoop fail (c :: rest) st cr up
          = syncWriteLoop fail rest st cr up := by
        simp [syncWriteLoop, hp]
      rw [hrec] at h ⊢
      obtain ⟨h1, h2, h3, h4⟩ := ih st h
      refine ⟨h1, h2, ?_, ?_⟩
      · rw [List.filter_cons, if_neg (by simpa using hp)]
        exact h3
      · rw [List.filter_cons, if_neg (by simpa using hp)]
        exact h4

/-- A fold of `writeContent` reads back as the last write to the key, or
as the original storage when the key was never written. -/
theorem foldl_writeContent_eq_lastWrite (ws : List RawContent) (st : Storage)
    (k : String × String) :
    (ws.foldl writeContent st) k
      = match lastWrite ws k with
        | some c => some c
        | none => st k := by
  induction ws generalizing st with
  | nil => rfl
  | cons c rest ih =>
    show (rest.foldl writeContent (writeContent st c)) k = _
    rw [ih]
    cases h : lastWrite rest k with
    | some r => simp [lastWrite, h]
    | none =>
      simp only [lastWrite, h, writeContent]
      by_cases hk : storageKey c.category c.slug = k
      · rw [if_pos hk, if_pos hk.symm]
      · rw [if_neg hk, if_neg (fun hkk => hk hkk.symm)]

/-- A last write comes from the list and hits the key. -/
theorem lastWrite_mem (ws : List RawContent) (k : String × String)
    (c : RawContent) (h : lastWrite ws k = some c) :
    c ∈ ws ∧ recordKey c = k := by
  induction ws with
  | nil => exact absurd h (by simp [lastWrite])
  | cons x rest ih =>
    simp only [lastWrite] at h
    cases hr : lastWrite rest k with
    | some r =>
      rw [hr] at h
      obtain ⟨hc, hkc⟩ := ih (hr.trans (congrArg some (Option.some_injective _ h)))
      exact ⟨List.mem_cons_of_mem _ hc, hkc⟩
    | none =>
      rw [hr] at h
      by_cases hk : storageKey x.category x.slug = k
      · rw [if_pos hk] at h
        cases h
        exact ⟨List.mem_cons_self _ _, hk⟩
      · rw [if_neg hk] at h
        exact absurd h (by simp)

/-- A record in the write list leaves some record at its key. -/
theorem lastWrite_isSome_of_mem (ws : List RawContent) (c : RawContent)
    (h : c ∈ ws) : lastWrite ws (recordKey c) ≠ none := by
  induction ws with
  | nil => exact absurd h (List.not_mem_nil c)
  | cons x rest ih =>
    simp only [lastWrite]
    cases hr : lastWrite rest (recordKey c) with
    | some r => simp
    | none =>
      rcases List.mem_cons.mp h with hc | hc
      · subst hc
        simp [recordKey]
      · exact absurd hr (ih hc)

/-- Exactly one of the three diff classifications holds for a record. -/
theorem unchangedPred_of_not_created_updated (st : Storage) (cat : String)
    (c : RawContent) (hcr : createdPred st cat c = false)
    (hup : updatedPred st cat c = false) : unchangedPred st cat c = true := by
  cases h : readContent st cat c.slug with
  | none => simp [createdPred, h] at hcr
  | some e =>
    simp only [updatedPred, h, decide_eq_false_iff_not, Decidable.not_not] at hup
    simp [unchangedPred, h, hup]

/-! ## Sync idempotence -/

/-- After a failure-free non-dry-run sync of a batch whose records have
pairwise distinct storage keys, the file at each batch record's own key
holds a record with that record's checksum. -/
theorem sync_stores_checksum (fail : RawContent → Option String) (st : Storage)
    (batch : List RawContent)
    (hkeys : batch.Pairwise (fun a b => recordKey a ≠ recordKey b))
    (herr : (syncContent fail st batch false).2.errors = []) :
    ∀ r ∈ batch, ∃ w,
      readContent (syncContent fail st batch false).1 r.category r.slug = some w
        ∧ w.checksum = r.checksum := by
  intro r hr
  have herr' : (syncWriteLoop fail batch st
      (diffAll st (groupByCategory batch)).created
      (diffAll st (groupByCategory batch)).updated).errors = [] := herr
  obtain ⟨-, -, -, hst⟩ := syncWriteLoop_no_errors fail batch st
    (diffAll st (groupByCategory batch)).created
    (diffAll st (groupByCategory batch)).updated herr'
  have hres : (syncContent fail st batch false).1
      = (batch.filter (fun c =>
          ((diffAll st (groupByCategory batch)).created
            ++ (diffAll st (groupByCategory batch)).updated).any
              (fun x => x.slug = c.slug))).foldl writeContent st := hst
  have hread : readContent (syncContent fail st batch false).1 r.category r.slug
      = match lastWrite (batch.filter (fun c =>
            ((diffAll st (groupByCategory batch)).created
              ++ (diffAll st (groupByCategory batch)).updated).any
                (fun x => x.slug = c.slug))) (recordKey r) with
        | some c => some c
        | none => st (recordKey r) := by
    rw [show readContent (syncContent fail st batch false).1 r.category r.slug
        = (syncContent fail st batch false).1 (recordKey r) from rfl, hres]
    exact foldl_writeContent_eq_lastWrite _ st (recordKey r)
  cases hlw : lastWrite (batch.filter (fun c =>
      ((diffAll st (groupByCategory batch)).created
        ++ (diffAll st (groupByCategory batch)).updated).any
          (fun x => x.slug = c.slug))) (recordKey r) with
  | some w =>
    obtain ⟨hwmem, hwk⟩ := lastWrite_mem _ _ _ hlw
    have hwin : w ∈ batch := (List.mem_filter.mp hwmem).1
    have hwr : w = r := by
      by_contra hne
      exact List.Pairwise.forall
        (fun a b (hab : recordKey a ≠ recordKey b) => (hab ∘ Eq.symm))
        hkeys hwin hr hne hwk
    subst hwr
    refine ⟨w, ?_, rfl⟩
    rw [hread, hlw]
  | none =>
    have hnotin : r ∉ (batch.filter (fun c =>
        ((diffAll st (groupByCategory batch)).created
          ++ (diffAll st (groupByCategory batch)).updated).any
            (fun x => x.slug = c.slug))) :=
      fun hin => lastWrite_isSome_of_mem _ r hin hlw
    have hanyfalse : ¬ (((diffAll st (groupByCategory batch)).created
        ++ (diffAll st (groupByCategory batch)).updated).any
          (fun x => x.slug = r.slug) = true) :=
      fun hany => hnotin (List.mem_filter.mpr ⟨hr, hany⟩)
    have hcrf : createdPred st r.category r = false := by
      by_contra hcrt
      have hcrt' : createdPred st r.category r = true :=
        eq_true_of_ne_false (fun hf => hcrt hf)
      have hmem : mkItem r "created" ∈ (diffAll st (groupByCategory batch)).created :=
        (syncDiff_created_perm st batch).mem_iff.mpr
          (List.mem_map_of_mem _ (List.mem_filter.mpr ⟨hr, hcrt'⟩))
      exact hanyfalse (List.any_eq_true.mpr
        ⟨mkItem r "created", List.mem_append_left _ hmem, by simp [mkItem]⟩)
    have hupf : updatedPred st r.category r = false := by
      by_contra hupt
      have hupt' : updatedPred st r.category r = true :=
        eq_true_of_ne_false (fun hf => hupt hf)
      have hmem : mkItem r "updated" ∈ (diffAll st (groupByCategory batch)).updated :=
        (syncDiff_updated_perm st batch).mem_iff.mpr
          (List.mem_map_of_mem _ (List.mem_filter.mpr ⟨hr, hupt'⟩))
      exact hanyfalse (List.any_eq_true.mpr
        ⟨mkItem r "updated", List.mem_append_right _ hmem, by simp [mkItem]⟩)
    have hunch := unchangedPred_of_not_created_updated st r.category r hcrf hupf
    cases hrd : readContent st r.category r.slug with
    | none => simp [unchangedPred, hrd] at hunch
    | some e =>
      refine ⟨e, ?_, ?_⟩
      · rw [hread, hlw]
        exact hrd
      · simpa [unchangedPred, hrd] using hunch

/-- C5 (amended): for a batch whose records have pairwise distinct storage
keys — the `(category, slug)` pair with the category normalized to its
storage directory — a failure-free sync followed by a second sync of the
same batch classifies every record as unchanged: the second report has
empty created, updated and errors buckets, and its unchanged bucket holds
exactly one entry per batch record. -/
theorem syncContent_idempotent_of_distinct_keys
    (fail₁ fail₂ : RawContent → Option String) (st : Storage)
    (batch : List RawContent)
    (hkeys : batch.Pairwise (fun a b => recordKey a ≠ recordKey b))
    (herr : (syncContent fail₁ st batch false).2.errors = []) :
    ((syncContent fail₂ (syncContent fail₁ st batch false).1 batch false).2.created = [])
  ∧ ((syncContent fail₂ (syncContent fail₁ st batch false).1 batch false).2.updated = [])
  ∧ ((syncContent fail₂ (syncContent fail₁ st batch false).1 batch false).2.errors = [])
  ∧ (∀ c ∈ batch, mkItem c "unchanged"
      ∈ (syncContent fail₂ (syncContent fail₁ st batch false).1 batch false).2.unchanged)
  ∧ ((syncContent fail₂ (syncContent fail₁ st batch false).1 batch false).2.unchanged.length
      = batch.length) := by
  have hcore := sync_stores_checksum fail₁ st batch hkeys herr
  have hcrf : ∀ r ∈ batch,
      createdPred (syncContent fail₁ st batch false).1 r.category r = false := by
    intro r hr
    obtain ⟨w, hw, -⟩ := hcore r hr
    simp [createdPred, hw]
  have hupf : ∀ r ∈ batch,
      updatedPred (syncContent fail₁ st batch false).1 r.category r = false := by
    intro r hr
    obtain ⟨w, hw, hck⟩ := hcore r hr
    simp [updatedPred, hw, hck]
  have hunt : ∀ r ∈ batch,
      unchangedPred (syncContent fail₁ st batch false).1 r.category r = true :=
    fun r hr => unchangedPred_of_not_created_updated _ _ _ (hcrf r hr) (hupf r hr)
  have hjoin := joinGroups_groupByCategory batch
  have h2cr : (diffAll (syncContent fail₁ st batch false).1
      (groupByCategory batch)).created = [] := by
    rw [diffAll_created_eq _ _ (groupByCategory_consistent batch)]
    rw [List.filter_eq_nil_iff.mpr
      (fun a ha => by simp [hcrf a (hjoin.mem_iff.mp ha)])]
    rfl
  have h2up : (diffAll (syncContent fail₁ st batch false).1
      (groupByCategory batch)).updated = [] := by
    rw [diffAll_updated_eq _ _ (groupByCategory_consistent batch)]
    rw [List.filter_eq_nil_iff.mpr
      (fun a ha => by simp [hupf a (hjoin.mem_iff.mp ha)])]
    rfl
  have h2un : (diffAll (syncContent fail₁ st batch false).1
      (groupByCategory batch)).unchanged
      = (joinGroups (groupByCategory batch)).map (fun c => mkItem c "unchanged") := by
    rw [diffAll_unchanged_eq _ _ (groupByCategory_consistent batch)]
    rw [List.filter_eq_self.mpr (fun a ha => hunt a (hjoin.mem_iff.mp ha))]
  have hloop : syncWriteLoop fail₂ batch (syncContent fail₁ st batch false).1
      (diffAll (syncContent fail₁ st batch false).1 (groupByCategory batch)).created
      (diffAll (syncContent fail₁ st batch false).1 (groupByCategory batch)).updated
      = ⟨(syncContent fail₁ st batch false).1, [], [], [], []⟩ := by
    rw [h2cr, h2up]
    exact syncWriteLoop_nil_buckets fail₂ batch _
  refine ⟨?_, ?_, ?_, ?_, ?_⟩
  · show (syncWriteLoop fail₂ batch (syncContent fail₁ st batch false).1
        (diffAll (syncContent fail₁ st batch false).1 (groupByCategory batch)).created
        (diffAll (syncContent fail₁ st batch false).1 (groupByCategory batch)).updated).created
      = []
    rw [hloop]
  · show (syncWriteLoop fail₂ batch (syncContent fail₁ st batch false).1
        (diffAll (syncContent fail₁ st batch false).1 (groupByCategory batch)).created
        (diffAll (syncContent fail₁ st batch false).1 (groupByCategory batch)).updated).updated
      = []
    rw [hloop]
  · show (syncWriteLoop fail₂ batch (syncContent fail₁ st batch false).1
        (diffAll (syncContent fail₁ st batch false).1 (groupByCategory batch)).created
        (diffAll (syncContent fail₁ st batch false).1 (groupByCategory batch)).updated).errors
      = []
    rw [hloop]
  · intro c hc
    show mkItem c "unchanged" ∈ (diffAll (syncContent fail₁ st batch false).1
        (groupByCategory batch)).unchanged
    rw [h2un]
    exact List.mem_map_of_mem _ (hjoin.mem_iff.mpr hc)
  · show (diffAll (syncContent fail₁ st batch false).1
        (groupByCategory batch)).unchanged.length = batch.length
    rw [h2un, List.length_map]
    exact hjoin.length_eq

/-- Witness for C5 at a concrete two-record batch over empty storage. -/
theorem syncContent_idempotent_witness :
    (syncContent noWriteFailure
        (syncContent noWriteFailure emptyStorage pairBatch false).1
        pairBatch false).2.unchanged.length = pairBatch.length := by
  exact (syncContent_idempotent_of_distinct_keys noWriteFailure noWriteFailure
    emptyStorage pairBatch (by decide) (by decide)).2.2.2.2

/-- C5 counterexample: the batch `[caseUpper, caseLower]` has pairwise
distinct raw `(category, slug)` pairs (the categories differ in case),
the first sync reports no errors, yet the second sync classifies
`caseUpper` as `updated` — both records' files live at the one normalized
key `("a", "s")`, so the later write overwrites the earlier one. -/
theorem syncContent_not_idempotent_on_normalized_collision :
    List.Pairwise (fun a b : RawContent =>
      (a.category, a.slug) ≠ (b.category, b.slug)) [caseUpper, caseLower]
  ∧ (syncContent noWriteFailure emptyStorage [caseUpper, caseLower] false).2.errors = []
  ∧ (syncContent noWriteFailure
      (syncContent noWriteFailure emptyStorage [caseUpper, caseLower] false).1
      [caseUpper, caseLower] false).2.updated
      = [mkItem caseUpper "updated"]
  ∧ recordKey caseUpper = recordKey caseLower := by decide

/-! ## Checksum purity (record normalization) -/

/-- C9: the checksum of a normalized record is the digest of the
discussion's body and nothing else: any two discussions with equal bodies
normalize (under any digest function, at any wall-clock time, for any
source and topic configuration) to records with equal checksums. -/
theorem discussionToRawContent_checksum_of_body (hash : String → String)
    (now₁ now₂ : String) (d₁ d₂ : Discussion) (s₁ s₂ : SourceConfig)
    (t₁ t₂ : TopicConfig) (hbody : d₁.body = d₂.body) :
    (discussionToRawContent hash now₁ d₁ s₁ t₁).checksum
      = (discussionToRawContent hash now₂ d₂ s₂ t₂).checksum
  ∧ (discussionToRawContent hash now₁ d₁ s₁ t₁).checksum = hash d₁.body := by
  constructor
  · simp [discussionToRawContent, hbody]
  · rfl

/-- Witness for C9 at two concrete discussions sharing a body. -/
theorem discussionToRawContent_checksum_witness :
    (discussionToRawContent hashSample "2024-05-01T00:00:00Z" discussionX
        sampleSource sampleTopic).checksum
      = (discussionToRawContent hashSample "2024-06-01T00:00:00Z" discussionY
          sampleSource sampleTopic).checksum := by
  exact (discussionToRawContent_checksum_of_body hashSample
    "2024-05-01T00:00:00Z" "2024-06-01T00:00:00Z" discussionX discussionY
    sampleSource sampleSource sampleTopic sampleTopic rfl).1

/-! ## Discussion pagination -/

/-- The pagination loop exits as soon as `hasMore` is false. -/
theorem listAllAux_stop (items : List Discussion) (maxItems fuel : Nat)
    (acc : List Discussion) (cursor : Option Nat) :
    listAllAux items maxItems fuel acc cursor false = (acc, 0) := by
  cases fuel <;> simp [listAllAux]

/-- Invariant of the pagination loop against the modelled origin: entered
with `items.take idx` accumulated, a cursor standing at `idx` and enough
fuel, it finishes with the first `min items.length maxItems` items. -/
theorem listAllAux_take (items : List Discussion) (maxItems : Nat) :
    ∀ fuel idx cursor, cursor.getD 0 = idx → idx ≤ items.length → idx ≤ maxItems →
    min items.length maxItems - idx < fuel →
    (listAllAux items maxItems fuel (items.take idx) cursor true).1
      = items.take (min items.length maxItems) := by
  intro fuel
  induction fuel with
  | zero => intro idx cursor h1 h2 h3 h4; exact absurd h4 (Nat.not_lt_zero _)
  | succ fuel ih =>
    intro idx cursor hcur hlen hmax hfuel
    have hacc : (items.take idx).length = idx := by
      rw [List.length_take]; omega
    by_cases hidx : idx < maxItems
    · simp only [listAllAux, hacc, hidx, and_true, if_true, true_and, if_pos]
      set resp := listDiscussions items ((maxItems - idx) ⊓ 100) cursor with hresp
      have hn : resp.nodes = (items.drop idx).take (((maxItems - idx) ⊓ 100) ⊓ 100) := by
        simp [hresp, listDiscussions, servePage, hcur]
      have hm : resp.nodes.length
          = min (((maxItems - idx) ⊓ 100) ⊓ 100) (items.length - idx) := by
        rw [hn]; simp [List.length_take, List.length_drop]
      have hpc : resp.pageInfo.hasNextPage
          = decide (idx + resp.nodes.length < items.length) := by
        simp [hresp, listDiscussions, servePage, hcur]
      have hec : resp.pageInfo.endCursor
          = if resp.nodes.isEmpty then none else some (idx + resp.nodes.length) := by
        simp [hresp, listDiscussions, servePage, hcur]
      rcases Nat.lt_or_ge idx items.length with hlt | hend
      · have hm1 : 1 ≤ resp.nodes.length := by rw [hm]; omega
        have hnenil : resp.nodes ≠ [] := by
          intro h; rw [h] at hm1; simp at hm1
        have hne : resp.nodes.isEmpty = false := by
          simpa [List.isEmpty_iff] using hnenil
        have hec' : resp.pageInfo.endCursor = some (idx + resp.nodes.length) := by
          rw [hec, hne]; rfl
        have hacc' : items.take idx ++ resp.nodes
            = items.take (idx + resp.nodes.length) := by
          have hnode2 : (items.drop idx).take (((maxItems - idx) ⊓ 100) ⊓ 100)
              = (items.drop idx).take resp.nodes.length := by
            rcases le_or_lt (((maxItems - idx) ⊓ 100) ⊓ 100)
                (items.length - idx) with h | h
            · rw [hm, Nat.min_eq_left h]
            · have hdl : (items.drop idx).length ≤ ((maxItems - idx) ⊓ 100) ⊓ 100 := by
                rw [List.length_drop]; omega
              rw [List.take_of_length_le hdl, List.take_of_length_le]
              rw [List.length_drop, hm]; omega
          conv_lhs => rw [hn, hnode2]
          rw [List.take_add]
        by_cases hnext : idx + resp.nodes.length < items.length
        · have htrue : resp.pageInfo.hasNextPage = true := by
            rw [hpc]; simpa using hnext
          rw [htrue, hec', hacc']
          exact ih (idx + resp.nodes.length) (some (idx + resp.nodes.length)) rfl
            (by omega) (by omega) (by omega)
        · have hfalse2 : resp.pageInfo.hasNextPage = false := by
            rw [hpc]; simpa using hnext
          rw [hfalse2, listAllAux_stop]
          show items.take idx ++ resp.nodes = _
          rw [hacc']
          have hLeq : idx + resp.nodes.length = items.length := by omega
          have hminL : items.length ⊓ maxItems = items.length := by omega
          rw [hLeq, hminL]
      · have hidxL : idx = items.length := le_antisymm hlen hend
        have hnil : resp.nodes = [] := by
          rw [hn, List.drop_eq_nil_of_le (by omega), List.take_nil]
        have hfalse : resp.pageInfo.hasNextPage = false := by
          rw [hpc, hnil]; simp; omega
        rw [hfalse, listAllAux_stop]
        show items.take idx ++ resp.nodes = _
        rw [hnil, List.append_nil]
        have hminL : items.length ⊓ maxItems = items.length := by omega
        rw [hminL, hidxL]
    · have hEq : idx = maxItems := by omega
      simp only [listAllAux, hacc, hidx, and_false, if_false]
      have hmin : items.length ⊓ maxItems = idx := by omega
      rw [hmin]

set_option maxRecDepth 40000 in
/-- C6: against every modelled paged origin, the pagination helper
terminates with the first `maxItems` items of the origin (the whole origin
when it holds fewer) — it stops at the hard cap or when the origin reports
no further page, never erring; in particular an origin of 250 items is
fully retrieved under the default cap of 1000 in exactly 3 page
fetches. -/
theorem listAllDiscussions_pagination :
    (∀ (items : List Discussion) (maxItems : Nat),
        (listAllDiscussions items maxItems).1 = items.take maxItems)
  ∧ (listAllDiscussions discussions250 1000).1 = discussions250
  ∧ (listAllDiscussions discussions250 1000).2 = 3 := by
  have hgen : ∀ (items : List Discussion) (maxItems : Nat),
      (listAllDiscussions items maxItems).1 = items.take maxItems := by
    intro items maxItems
    have h := listAllAux_take items maxItems (maxItems + 1) 0 none rfl
      (Nat.zero_le _) (Nat.zero_le _) (by omega)
    rw [listAllDiscussions, show ([] : List Discussion) = items.take 0 from rfl, h]
    rcases le_or_lt maxItems items.length with h1 | h1
    · rw [Nat.min_eq_right h1]
    · rw [Nat.min_eq_left (le_of_lt h1), List.take_of_length_le (le_of_lt h1),
        List.take_length]
  refine ⟨hgen, ?_, ?_⟩
  · rw [hgen]
    refine List.take_of_length_le ?_
    simp [discussions250]
  · decide

/-! ## 403 handling in `graphqlRequest` -/

/-- C7: on a non-ok 403 transport response, a rate-remaining header of
exactly `"0"` raises the rate-limit failure — its message carrying the
rendered reset time when the reset header is present (and non-degenerate)
and the marker `"unknown"` when it is absent — while any other
rate-remaining reading raises the forbidden failure. -/
theorem graphqlRequest_403_classification (fmtReset : String → String)
    (resp : HttpResponse) (hok : resp.ok = false) (hst : resp.status = 403) :
    (∀ t, resp.rateLimitRemaining = some "0" → resp.rateLimitReset = some t →
        t ≠ "" → fmtReset t ≠ "" →
        handleHttpErrors fmtReset resp
          = some ⟨"GitHub API rate limit exceeded. Resets at " ++ fmtReset t, some 403⟩)
  ∧ (resp.rateLimitRemaining = some "0" → resp.rateLimitReset = none →
        handleHttpErrors fmtReset resp
          = some ⟨"GitHub API rate limit exceeded. Resets at " ++ "unknown", some 403⟩)
  ∧ (resp.rateLimitRemaining ≠ some "0" →
        handleHttpErrors fmtReset resp
          = some ⟨"Access forbidden. Check token permissions.", some 403⟩) := by
  refine ⟨?_, ?_, ?_⟩
  · intro t hrem hreset ht hfmt
    simp [handleHttpErrors, hok, hst, hrem, hreset, ht, hfmt]
  · intro hrem hreset
    simp [handleHttpErrors, hok, hst, hrem, hreset]
  · intro hrem
    simp [handleHttpErrors, hok, hst, hrem]

/-- Witness for C7 at a concrete 403 rate-limited response with a reset
header. -/
theorem graphqlRequest_403_witness :
    handleHttpErrors fmtSample rateLimitedResponse
      = some ⟨"GitHub API rate limit exceeded. Resets at 2023-11-14T22:13:20.000Z",
          some 403⟩ := by
  exact (graphqlRequest_403_classification fmtSample rateLimitedResponse rfl
    rfl).1 "1700000000" rfl rfl (by decide) (by decide)

/-! ## Slug generation -/

/-- Every character the run-replacement emits is the replacement or a kept
input character not matching the pattern. -/
theorem replaceRunsGo_mem (p : Char → Bool) (r : Char) :
    ∀ (b : Bool) (l : List Char), ∀ c ∈ replaceRunsGo p r b l,
      c = r ∨ (c ∈ l ∧ p c = false) := by
  intro b l
  induction l generalizing b with
  | nil => intro c hc; exact absurd hc (List.not_mem_nil c)
  | cons x rest ih =>
    intro c hc
    simp only [replaceRunsGo] at hc
    by_cases hx : p x = true
    · rw [if_pos hx] at hc
      cases b with
      | true =>
        rw [if_pos rfl] at hc
        rcases ih true c hc with h | ⟨hmem, hp⟩
        · exact Or.inl h
        · exact Or.inr ⟨List.mem_cons_of_mem _ hmem, hp⟩
      | false =>
        rw [if_neg (by simp)] at hc
        rcases List.mem_cons.mp hc with h | h
        · exact Or.inl h
        · rcases ih true c h with h' | ⟨hmem, hp⟩
          · exact Or.inl h'
          · exact Or.inr ⟨List.mem_cons_of_mem _ hmem, hp⟩
    · rw [if_neg hx] at hc
      rcases List.mem_cons.mp hc with h | h
      · subst h
        exact Or.inr ⟨List.mem_cons_self _ _, Bool.eq_false_iff.mpr hx⟩
      · rcases ih false c h with h' | ⟨hmem, hp⟩
        · exact Or.inl h'
        · exact Or.inr ⟨List.mem_cons_of_mem _ hmem, hp⟩

/-- Inside a run the next emitted character is a kept one. -/
theorem replaceRunsGo_head_true (p : Char → Bool) (r : Char) :
    ∀ (l : List Char) (c : Char), (replaceRunsGo p r true l).head? = some c →
      p c = false := by
  intro l
  induction l with
  | nil => intro c hc; simp [replaceRunsGo] at hc
  | cons x rest ih =>
    intro c hc
    simp only [replaceRunsGo] at hc
    by_cases hx : p x = true
    · rw [if_pos hx] at hc
      exact ih c hc
    · rw [if_neg hx] at hc
      simp only [List.head?_cons, Option.some_inj] at hc
      subst hc
      exact Bool.eq_false_iff.mpr hx

/-- When the replacement character itself matches the pattern, the
run-replacement never emits it twice in a row. -/
theorem replaceRunsGo_chain (p : Char → Bool) (r : Char) (hpr : p r = true) :
    ∀ (b : Bool) (l : List Char),
      (replaceRunsGo p r b l).Chain' (fun a c => ¬(a = r ∧ c = r)) := by
  intro b l
  induction l generalizing b with
  | nil => simp [replaceRunsGo]
  | cons x rest ih =>
    simp only [replaceRunsGo]
    by_cases hx : p x = true
    · rw [if_pos hx]
      cases b with
      | true =>
        rw [if_pos rfl]
        exact ih true
      | false =>
        rw [if_neg (by simp), List.chain'_cons']
        refine ⟨?_, ih true⟩
        intro c hc hand
        have hpc := replaceRunsGo_head_true p r rest c hc
        rw [hand.2, hpr] at hpc
        exact absurd hpc (by simp)
    · rw [if_neg hx]
      rw [List.chain'_cons']
      refine ⟨?_, ih false⟩
      intro c hc hand
      rw [hand.1] at hx
      exact hx hpr

/-- Collapsing runs of `r` leaves a list without adjacent `r`s alone. -/
theorem replaceRunsGo_eq_self (r : Char) :
    ∀ l : List Char, l.Chain' (fun a c => ¬(a = r ∧ c = r)) →
      replaceRunsGo (fun c => c = r) r false l = l
    ∧ ((∀ c, l.head? = some c → c ≠ r) →
        replaceRunsGo (fun c => c = r) r true l = l) := by
  intro l
  induction l with
  | nil => exact fun _ => ⟨rfl, fun _ => rfl⟩
  | cons x rest ih =>
    intro hch
    obtain ⟨hhead, htail⟩ := List.chain'_cons'.mp hch
    obtain ⟨ih1, ih2⟩ := ih htail
    constructor
    · simp only [replaceRunsGo]
      by_cases hx : x = r
      · rw [if_pos (by simp [hx]), if_neg (by simp)]
        rw [ih2 ?_]
        · rw [hx]
        · intro c hc hcr
          exact hhead c hc ⟨hx, hcr⟩
      · rw [if_neg (by simp [hx])]
        rw [ih1]
    · intro hne
      simp only [replaceRunsGo]
      have hx : ¬(x = r) := hne x rfl
      rw [if_neg (by simp [hx]), ih1]

/-- The head surviving `dropWhile` does not satisfy the predicate. -/
theorem head_dropWhile_false (q : Char → Bool) :
    ∀ (l : List Char) (c : Char), (l.dropWhile q).head? = some c → q c = false := by
  intro l
  induction l with
  | nil => intro c hc; simp [List.dropWhile] at hc
  | cons x rest ih =>
    intro c hc
    by_cases hx : q x = true
    · rw [List.dropWhile_cons_of_pos hx] at hc
      exact ih c hc
    · rw [List.dropWhile_cons_of_neg hx] at hc
      simp only [List.head?_cons, Option.some_inj] at hc
      subst hc
      exact Bool.eq_false_iff.mpr hx

/-- `dropWhile` preserves adjacency invariants. -/
theorem chain'_dropWhile {R : Char → Char → Prop} (q : Char → Bool) :
    ∀ l : List Char, l.Chain' R → (l.dropWhile q).Chain' R := by
  intro l
  induction l with
  | nil => intro h; exact h
  | cons x rest ih =>
    intro h
    by_cases hx : q x = true
    · rw [List.dropWhile_cons_of_pos hx]
      exact ih h.tail
    · rw [List.dropWhile_cons_of_neg hx]
      exact h

/-- Reversal preserves a symmetric adjacency invariant. -/
theorem chain'_rev {R : Char → Char → Prop} (hsym : ∀ a b, R a b → R b a) :
    ∀ l : List Char, l.Chain' R → l.reverse.Chain' R := by
  intro l h
  rw [List.chain'_reverse]
  exact h.imp (fun a b hab => hsym a b hab)

/-- Trimming hyphens preserves the no-adjacent-hyphens invariant. -/
theorem trimHyphens_chain (l : List Char)
    (h : l.Chain' (fun a c => ¬(a = '-' ∧ c = '-'))) :
    (trimHyphens l).Chain' (fun a c => ¬(a = '-' ∧ c = '-')) := by
  have hsym : ∀ a b : Char, ¬(a = '-' ∧ b = '-') → ¬(b = '-' ∧ a = '-') :=
    fun a b hab ⟨h1, h2⟩ => hab ⟨h2, h1⟩
  exact chain'_rev hsym _ (chain'_dropWhile _ _ (chain'_rev hsym _ (chain'_dropWhile _ _ h)))

/-- After the non-alphanumeric pass there are no adjacent hyphens, so the
final collapse pass of `generateSlug` is the identity: the slug is the
trimmed hyphenation. -/
theorem generateSlug_eq_trim (t : String) :
    generateSlug t
      = String.mk (trimHyphens (replaceRunsWith (fun c => ¬ isSlugAlnum c) '-'
          ((((t.data.map nfd).flatten).filter (fun c => ¬ isCombiningMark c)).map
            lowerChar))) := by
  have hch : (replaceRunsWith (fun c => ¬ isSlugAlnum c) '-'
      ((((t.data.map nfd).flatten).filter (fun c => ¬ isCombiningMark c)).map
        lowerChar)).Chain' (fun a c => ¬(a = '-' ∧ c = '-')) :=
    replaceRunsGo_chain _ '-' (by decide) false _
  have htr := trimHyphens_chain _ hch
  show String.mk (replaceRunsWith (fun c => c = '-') '-' (trimHyphens _)) = _
  rw [show replaceRunsWith (fun c => c = '-') '-' (trimHyphens
      (replaceRunsWith (fun c => ¬ isSlugAlnum c) '-'
        ((((t.data.map nfd).flatten).filter (fun c => ¬ isCombiningMark c)).map
          lowerChar)))
    = trimHyphens (replaceRunsWith (fun c => ¬ isSlugAlnum c) '-'
        ((((t.data.map nfd).flatten).filter (fun c => ¬ isCombiningMark c)).map
          lowerChar))
    from (replaceRunsGo_eq_self '-' _ htr).1]

/-- Every character of the trimmed list was in the original. -/
theorem trimHyphens_subset (l : List Char) : ∀ c ∈ trimHyphens l, c ∈ l := by
  intro c hc
  simp only [trimHyphens, List.mem_reverse] at hc
  have h1 := (List.dropWhile_suffix _).subset hc
  rw [List.mem_reverse] at h1
  exact (List.dropWhile_suffix _).subset h1

/-- The trimmed list neither starts nor ends with a hyphen. -/
theorem trimHyphens_ends (l : List Char) :
    (∀ c, (trimHyphens l).head? = some c → c ≠ '-')
  ∧ (∀ c, (trimHyphens l).getLast? = some c → c ≠ '-') := by
  constructor
  · intro c hc
    have hx : (trimHyphens l).head?
        = ((l.dropWhile (fun c => c = '-')).reverse.dropWhile
            (fun c => c = '-')).getLast? := by
      show ((l.dropWhile _).reverse.dropWhile _).reverse.head? = _
      rw [List.head?_reverse]
    rw [hx] at hc
    have hne : (l.dropWhile (fun c => c = '-')).reverse.dropWhile
        (fun c => c = '-') ≠ [] := by
      intro h0
      rw [h0] at hc
      simp at hc
    obtain ⟨t0, ht0⟩ :=
      List.dropWhile_suffix (l := (l.dropWhile (fun c => c = '-')).reverse)
        (fun c => c = '-')
    have hlast : ((l.dropWhile (fun c => c = '-')).reverse.dropWhile
        (fun c => c = '-')).getLast?
        = ((l.dropWhile (fun c => c = '-')).reverse).getLast? := by
      conv_rhs => rw [← ht0]
      rw [List.getLast?_append_of_ne_nil _ hne]
    rw [hlast, List.getLast?_reverse] at hc
    have := head_dropWhile_false _ _ _ hc
    simpa using this
  · intro c hc
    have hx : (trimHyphens l).getLast?
        = ((l.dropWhile (fun c => c = '-')).reverse.dropWhile
            (fun c => c = '-')).head? := by
      show ((l.dropWhile _).reverse.dropWhile _).reverse.getLast? = _
      rw [List.getLast?_reverse]
    rw [hx] at hc
    have := head_dropWhile_false _ _ _ hc
    simpa using this

set_option maxRecDepth 8000 in
/-- C8: `generateSlug` decomposes diacritics and strips the combining
marks, lowercases, replaces each run of non-alphanumerics by one hyphen
and trims the ends — so every slug consists of lowercase alphanumerics
and isolated interior hyphens only — and takes the spec's values on its
example titles. -/
theorem generateSlug_spec :
    (∀ (t : String), ∀ c ∈ (generateSlug t).data, isSlugAlnum c = true ∨ c = '-')
  ∧ (∀ (t : String) (c : Char), (generateSlug t).data.head? = some c → c ≠ '-')
  ∧ (∀ (t : String) (c : Char), (generateSlug t).data.getLast? = some c → c ≠ '-')
  ∧ (∀ t : String, (generateSlug t).data.Chain' (fun a b => ¬(a = '-' ∧ b = '-')))
  ∧ generateSlug "Niccolò Machiavelli" = "niccolo-machiavelli"
  ∧ generateSlug "Hello   World" = "hello-world"
  ∧ generateSlug "Hello---World" = "hello-world"
  ∧ generateSlug "" = ""
  ∧ generateSlug "---" = "" := by
  refine ⟨?_, ?_, ?_, ?_, by decide, by decide, by decide, by decide, by decide⟩
  · intro t c hc
    rw [generateSlug_eq_trim] at hc
    have h2 := trimHyphens_subset _ c hc
    rcases replaceRunsGo_mem _ '-' false _ c h2 with h | ⟨hmem, hp⟩
    · exact Or.inr h
    · left
      simpa using hp
  · intro t c hc
    rw [generateSlug_eq_trim] at hc
    exact (trimHyphens_ends _).1 c hc
  · intro t c hc
    rw [generateSlug_eq_trim] at hc
    exact (trimHyphens_ends _).2 c hc
  · intro t
    rw [generateSlug_eq_trim]
    exact trimHyphens_chain _ (replaceRunsGo_chain _ '-' (by decide) false _)

/-! ## The write loop matches results by slug alone -/

/-- C3 (evaluating the code at the failing input): in the batch
`[freshA, unchangedB]` over a storage holding `storedB`, the record
`unchangedB` is classified `unchanged` (same checksum, new title), yet the
write loop — which looks classification results up by slug alone — finds
`freshA`'s created entry under the shared slug `"s"`, attempts the write,
and overwrites the stored file at `("b", "s")`. -/
theorem syncContent_writes_unchanged_record :
    classify storageB unchangedB = "unchanged"
  ∧ mkItem unchangedB "unchanged"
      ∈ (syncContent noWriteFailure storageB [freshA, unchangedB] false).2.unchanged
  ∧ unchangedB ∈ syncAttempted noWriteFailure storageB [freshA, unchangedB]
  ∧ readContent storageB "b" "s" = some storedB
  ∧ (syncContent noWriteFailure storageB [freshA, unchangedB] false).1 ("b", "s")
      = some unchangedB
  ∧ storedB ≠ unchangedB := by decide

/-- C1 (evaluating the code at the failing input): same batch, but the
(wrongly attempted) write of `unchangedB` throws.  The report then carries
`unchangedB` both in `unchanged` and in `errors`, and the slug-keyed
filter also strips `freshA`'s entry — whose write succeeded — out of
`created`. -/
theorem syncContent_write_failure_double_bucket :
    mkItem unchangedB "unchanged"
      ∈ (syncContent failUnchangedB storageB [freshA, unchangedB] false).2.unchanged
  ∧ mkErrorItem unchangedB "disk full"
      ∈ (syncContent failUnchangedB storageB [freshA, unchangedB] false).2.errors
  ∧ (syncContent failUnchangedB storageB [freshA, unchangedB] false).2.created = []
  ∧ (syncContent failUnchangedB storageB [freshA, unchangedB] false).1 ("a", "s")
      = some freshA := by decide

end Veritas
